import Mathlib

/-!
# Verification of the `scheduling` inventory-ledger wrapper

This development embeds the observable behaviour of the `scheduling`
repository: the Python boundary layer in `src/pybinding/scheduling_py.py`
(date-time conversions and the inventory helper functions) together with the
inventory ledger, entity catalog and relation registry that the wrapper
exposes.  The ledger, catalog and registry themselves live in the C# assembly
`Scheduling.dll` (namespace `Scheduling.Models`), whose sources are not part
of the checked tree; those components are modelled from the specification, as
noted on each definition.  Net-change quantities are modelled as rationals
(the spec's signed real numbers), timestamps as an arbitrary linearly ordered
key type, instantiated at the C# `DateTime` component tuple where the boundary
layer is involved.
-/

namespace Scheduling

/-- The components of a Python `datetime` value that the boundary layer in
`scheduling_py.py` reads: `year`, `month`, `day`, `hour`, `minute`, `second`
and `microsecond`. -/
structure PyDateTime where
  year : Nat
  month : Nat
  day : Nat
  hour : Nat
  minute : Nat
  second : Nat
  microsecond : Nat
deriving DecidableEq, Repr

/-- The components of a C# `System.DateTime` value as constructed by the
boundary layer: `Year`, `Month`, `Day`, `Hour`, `Minute`, `Second` and
`Millisecond`. -/
structure CSharpDateTime where
  year : Nat
  month : Nat
  day : Nat
  hour : Nat
  minute : Nat
  second : Nat
  millisecond : Nat
deriving DecidableEq, Repr

/-- `python_datetime_to_csharp` from `scheduling_py.py`: builds the C#
`DateTime` from the Python fields, converting microseconds to milliseconds by
integer division (`dt.microsecond // 1000`). -/
def python_datetime_to_csharp (dt : PyDateTime) : CSharpDateTime :=
  { year := dt.year
    month := dt.month
    day := dt.day
    hour := dt.hour
    minute := dt.minute
    second := dt.second
    millisecond := dt.microsecond / 1000 }

/-- `csharp_datetime_to_python` from `scheduling_py.py`: rebuilds a Python
`datetime` from the C# fields, converting milliseconds to microseconds by
multiplication (`dt.Millisecond * 1000`). -/
def csharp_datetime_to_python (dt : CSharpDateTime) : PyDateTime :=
  { year := dt.year
    month := dt.month
    day := dt.day
    hour := dt.hour
    minute := dt.minute
    second := dt.second
    microsecond := dt.millisecond * 1000 }

/-- The field tuple of a `CSharpDateTime`, most significant component first.
C# `DateTime` values compare chronologically, which on these components is
the lexicographic order. -/
def CSharpDateTime.fieldList (d : CSharpDateTime) : List Nat :=
  [d.year, d.month, d.day, d.hour, d.minute, d.second, d.millisecond]

theorem CSharpDateTime.fieldList_injective :
    Function.Injective CSharpDateTime.fieldList := by
  intro a b h
  cases a
  cases b
  simp [CSharpDateTime.fieldList] at h
  simp_all

/-- Chronological (lexicographic) order on C# `DateTime` component tuples. -/
instance : LinearOrder CSharpDateTime :=
  LinearOrder.lift' CSharpDateTime.fieldList CSharpDateTime.fieldList_injective

/-! ## The inventory ledger

Modelled from the spec: the `Scheduling.Models` inventory ledger owned by a
`ProductLocation` (C# sources absent from the tree).  The spec describes it as
an ordered map from timestamps to signed net changes, with at most one entry
per distinct timestamp; we realise it as a strictly ascending association
list.  The ledger is generic over the timestamp key type. -/

/-- A ledger is a list of `(timestamp, netChange)` entries; all operations
keep it strictly ascending by timestamp. -/
abbrev Ledger (τ : Type) := List (τ × ℚ)

variable {τ : Type} [LinearOrder τ]

/-- Modelled from the spec: the single write primitive of the ordered map.
`setEntry t upd L` replaces the entry at timestamp `t` with
`upd (some oldValue)`, or inserts `upd none` in order when no entry exists at
`t`. -/
def setEntry (t : τ) (upd : Option ℚ → ℚ) : Ledger τ → Ledger τ
  | [] => [(t, upd none)]
  | (u, v) :: rest =>
    if t < u then (t, upd none) :: (u, v) :: rest
    else if t = u then (t, upd (some v)) :: rest
    else (u, v) :: setEntry t upd rest

/-- Modelled from the spec: `addInventory(timestamp, quantity)` — if an entry
exists at `timestamp`, its `netChange` becomes `netChange + quantity`;
otherwise an entry with `netChange = quantity` is created. -/
def addInventory (t : τ) (q : ℚ) (L : Ledger τ) : Ledger τ :=
  setEntry t (fun o => match o with | some v => v + q | none => q) L

/-- Modelled from the spec: `removeInventory(timestamp, quantity)` —
accumulates `-quantity` into the entry at `timestamp`, creating one with
`netChange = -quantity` if absent. -/
def removeInventory (t : τ) (q : ℚ) (L : Ledger τ) : Ledger τ :=
  setEntry t (fun o => match o with | some v => v - q | none => -q) L

/-- Modelled from the spec: `updateInventory(timestamp, netChange)` —
overwrite, not accumulate: sets the entry at `timestamp` to exactly
`netChange`, replacing any prior value; creates the entry if absent. -/
def updateInventory (t : τ) (c : ℚ) (L : Ledger τ) : Ledger τ :=
  setEntry t (fun _ => c) L

/-- First-match lookup of the entry stored at timestamp `t`. -/
def lookupEntry (t : τ) : Ledger τ → Option ℚ
  | [] => none
  | (u, v) :: rest => if t = u then some v else lookupEntry t rest

/-- Modelled from the spec: `getInventoryChangeAtTime(timestamp)` — the
stored `netChange` for an exact timestamp match, or `0` if no entry exists at
that exact instant. -/
def getInventoryChangeAtTime (t : τ) (L : Ledger τ) : ℚ :=
  (lookupEntry t L).getD 0

/-- Modelled from the spec: `getCumulativeInventory(timestamp)` — the sum of
`netChange` over all entries with `entryTimestamp ≤ timestamp`. -/
def getCumulativeInventory (T : τ) (L : Ledger τ) : ℚ :=
  ((L.filter (fun p => decide (p.1 ≤ T))).map Prod.snd).sum

/-- Modelled from the spec: `getAllInventoryChanges()` — the full entry set
as `(timestamp, netChange)` pairs, sorted ascending by timestamp. -/
def getAllInventoryChanges (L : Ledger τ) : List (τ × ℚ) := L

/-- Modelled from the spec: `getInventoryChangesInRange(start, end)` — the
entries with `start ≤ timestamp ≤ end`, both ends inclusive, sorted
ascending. -/
def getInventoryChangesInRange (s e : τ) (L : Ledger τ) : List (τ × ℚ) :=
  L.filter (fun p => decide (s ≤ p.1 ∧ p.1 ≤ e))

/-- The ledger invariant: entries are strictly ascending by timestamp (hence
at most one entry per distinct timestamp value). -/
def SortedLedger (L : Ledger τ) : Prop :=
  L.Pairwise (fun p q => p.1 < q.1)

/-- One mutation of a ledger: the three write operations of the spec. -/
inductive LedgerOp (τ : Type) where
  | add (t : τ) (q : ℚ)
  | remove (t : τ) (q : ℚ)
  | update (t : τ) (c : ℚ)

/-- Apply one write operation to a ledger. -/
def applyOp (op : LedgerOp τ) (L : Ledger τ) : Ledger τ :=
  match op with
  | .add t q => addInventory t q L
  | .remove t q => removeInventory t q L
  | .update t c => updateInventory t c L

/-- Apply a sequence of write operations, oldest first. -/
def applyOps (ops : List (LedgerOp τ)) (L : Ledger τ) : Ledger τ :=
  ops.foldl (fun M op => applyOp op M) L

/-! ## The Python boundary helper functions

From `scheduling_py.py`: each helper converts its Python `datetime` arguments
with `python_datetime_to_csharp` and then calls the corresponding C# ledger
operation; the two readers returning entry lists convert timestamps back with
`csharp_datetime_to_python`. -/

/-- `add_inventory` from `scheduling_py.py`. -/
def add_inventory (L : Ledger CSharpDateTime) (time : PyDateTime) (q : ℚ) :
    Ledger CSharpDateTime :=
  addInventory (python_datetime_to_csharp time) q L

/-- `remove_inventory` from `scheduling_py.py`. -/
def remove_inventory (L : Ledger CSharpDateTime) (time : PyDateTime) (q : ℚ) :
    Ledger CSharpDateTime :=
  removeInventory (python_datetime_to_csharp time) q L

/-- `update_inventory` from `scheduling_py.py`. -/
def update_inventory (L : Ledger CSharpDateTime) (time : PyDateTime) (c : ℚ) :
    Ledger CSharpDateTime :=
  updateInventory (python_datetime_to_csharp time) c L

/-- `get_cumulative_inventory` from `scheduling_py.py`. -/
def get_cumulative_inventory (L : Ledger CSharpDateTime) (time : PyDateTime) : ℚ :=
  getCumulativeInventory (python_datetime_to_csharp time) L

/-- `get_inventory_change_at_time` from `scheduling_py.py`. -/
def get_inventory_change_at_time (L : Ledger CSharpDateTime) (time : PyDateTime) : ℚ :=
  getInventoryChangeAtTime (python_datetime_to_csharp time) L

/-- `get_all_inventory_changes` from `scheduling_py.py`. -/
def get_all_inventory_changes (L : Ledger CSharpDateTime) :
    List (PyDateTime × ℚ) :=
  (getAllInventoryChanges L).map (fun p => (csharp_datetime_to_python p.1, p.2))

/-- `get_inventory_changes_in_range` from `scheduling_py.py`. -/
def get_inventory_changes_in_range (L : Ledger CSharpDateTime)
    (start_time end_time : PyDateTime) : List (PyDateTime × ℚ) :=
  (getInventoryChangesInRange (python_datetime_to_csharp start_time)
      (python_datetime_to_csharp end_time) L).map
    (fun p => (csharp_datetime_to_python p.1, p.2))

/-! ## Entity catalog and relation registry

Modelled from the spec: the `Product`/`Location` catalogs and the
`ProductLocation` registry of `Scheduling.Models` (C# sources absent from the
tree).  A catalog is a name-keyed registry; `create` is an idempotent
upsert-by-name.  The relation registry keys relations by the composite string
`productName ++ "@" ++ locationName`. -/

/-- A named entity (a `Product` or a `Location`). -/
structure Entity where
  name : String
deriving DecidableEq, Repr

/-- A catalog is the list of registered entities, oldest first. -/
abbrev Catalog := List Entity

/-- Modelled from the spec: `create(name)` — if an entity named `name`
exists, return it unchanged (no duplicate, no error); else construct and
register a new entity and return it. -/
def Catalog.create (c : Catalog) (n : String) : Catalog × Entity :=
  match c with
  | [] => ([⟨n⟩], ⟨n⟩)
  | e :: rest =>
    if e.name = n then (e :: rest, e)
    else
      let p := Catalog.create rest n
      (e :: p.1, p.2)

/-- A relation between a product and a location. -/
structure ProductLocation where
  productName : String
  locationName : String
deriving DecidableEq, Repr

/-- The composite key of a relation: `productName ++ "@" ++ locationName`. -/
def ProductLocation.key (pl : ProductLocation) : String :=
  pl.productName ++ "@" ++ pl.locationName

/-- The relation registry is the list of registered relations, oldest
first. -/
abbrev PLRegistry := List ProductLocation

/-- Modelled from the spec: `ProductLocation.create(productName,
locationName)` — computes the composite key; if a relation with that key
already exists, returns the existing instance (idempotent); otherwise
registers a new relation under the key and returns it. -/
def PLRegistry.create (r : PLRegistry) (p l : String) :
    PLRegistry × ProductLocation :=
  match r with
  | [] => ([⟨p, l⟩], ⟨p, l⟩)
  | x :: rest =>
    if x.key = p ++ "@" ++ l then (x :: rest, x)
    else
      let q := PLRegistry.create rest p l
      (x :: q.1, q.2)

/-- Modelled from the spec: `getByKey(key)` — exact lookup by composite key,
`none` (the `NotFound` signal) if absent. -/
def PLRegistry.getByKey (r : PLRegistry) (k : String) : Option ProductLocation :=
  match r with
  | [] => none
  | x :: rest => if x.key = k then some x else PLRegistry.getByKey rest k

/-! ## Ledger lemmas -/

theorem getCumulativeInventory_nil (T : τ) :
    getCumulativeInventory T ([] : Ledger τ) = 0 := rfl

theorem getCumulativeInventory_cons (T : τ) (p : τ × ℚ) (L : Ledger τ) :
    getCumulativeInventory T (p :: L) =
      (if p.1 ≤ T then p.2 else 0) + getCumulativeInventory T L := by
  by_cases h : p.1 ≤ T <;>
    simp [getCumulativeInventory, List.filter_cons, h]

theorem mem_setEntry {t : τ} {upd : Option ℚ → ℚ} {L : Ledger τ} {p : τ × ℚ}
    (hp : p ∈ setEntry t upd L) : p.1 = t ∨ p ∈ L := by
  induction L with
  | nil =>
    simp only [setEntry, List.mem_singleton] at hp
    subst hp
    exact Or.inl rfl
  | cons hd tl ih =>
    obtain ⟨u, v⟩ := hd
    by_cases h1 : t < u
    · simp only [setEntry, if_pos h1, List.mem_cons] at hp
      rcases hp with rfl | hp
      · exact Or.inl rfl
      · exact Or.inr (List.mem_cons.mpr hp)
    · by_cases h2 : t = u
      · simp only [setEntry, if_neg h1, if_pos h2, List.mem_cons] at hp
        rcases hp with rfl | hp
        · exact Or.inl rfl
        · exact Or.inr (List.mem_cons_of_mem _ hp)
      · simp only [setEntry, if_neg h1, if_neg h2, List.mem_cons] at hp
        rcases hp with rfl | hp
        · exact Or.inr (List.mem_cons_self _ _)
        · rcases ih hp with h | h
          · exact Or.inl h
          · exact Or.inr (List.mem_cons_of_mem _ h)

theorem setEntry_sorted {t : τ} {upd : Option ℚ → ℚ} {L : Ledger τ}
    (h : SortedLedger L) : SortedLedger (setEntry t upd L) := by
  induction L with
  | nil =>
    simp [setEntry, SortedLedger]
  | cons hd tl ih =>
    obtain ⟨u, v⟩ := hd
    rw [SortedLedger, List.pairwise_cons] at h
    obtain ⟨h1, h2⟩ := h
    by_cases hlt : t < u
    · rw [SortedLedger]
      simp only [setEntry, if_pos hlt]
      refine List.Pairwise.cons ?_ (List.Pairwise.cons h1 h2)
      intro q hq
      rcases List.mem_cons.mp hq with rfl | hq
      · exact hlt
      · exact lt_trans hlt (h1 q hq)
    · by_cases heq : t = u
      · rw [SortedLedger]
        simp only [setEntry, if_neg hlt, if_pos heq]
        subst heq
        exact List.Pairwise.cons h1 h2
      · rw [SortedLedger]
        simp only [setEntry, if_neg hlt, if_neg heq]
        refine List.Pairwise.cons ?_ (ih h2)
        intro q hq
        rcases mem_setEntry hq with hq1 | hq1
        · rw [hq1]
          exact lt_of_le_of_ne (not_lt.mp hlt) (Ne.symm heq)
        · exact h1 q hq1

theorem lookupEntry_eq_none_iff {t : τ} {L : Ledger τ} :
    lookupEntry t L = none ↔ ∀ p ∈ L, p.1 ≠ t := by
  induction L with
  | nil => simp [lookupEntry]
  | cons hd tl ih =>
    obtain ⟨u, v⟩ := hd
    by_cases h : t = u
    · subst h
      simp [lookupEntry]
    · simp [lookupEntry, h, ih, Ne.symm h]

theorem lookupEntry_head_lt {t : τ} {L : Ledger τ}
    (hall : ∀ p ∈ L, t < p.1) : lookupEntry t L = none := by
  rw [lookupEntry_eq_none_iff]
  intro p hp
  exact ne_of_gt (hall p hp)

theorem lookupEntry_setEntry_self {t : τ} {upd : Option ℚ → ℚ} {L : Ledger τ}
    (h : SortedLedger L) :
    lookupEntry t (setEntry t upd L) = some (upd (lookupEntry t L)) := by
  induction L with
  | nil => simp [setEntry, lookupEntry]
  | cons hd tl ih =>
    obtain ⟨u, v⟩ := hd
    rw [SortedLedger, List.pairwise_cons] at h
    obtain ⟨h1, h2⟩ := h
    by_cases hlt : t < u
    · have hnone : lookupEntry t ((u, v) :: tl) = none := by
        apply lookupEntry_head_lt
        intro p hp
        rcases List.mem_cons.mp hp with rfl | hp
        · exact hlt
        · exact lt_trans hlt (h1 p hp)
      have hred : setEntry t upd ((u, v) :: tl) = (t, upd none) :: (u, v) :: tl := by
        simp [setEntry, hlt]
      rw [hred, hnone]
      simp [lookupEntry]
    · by_cases heq : t = u
      · subst heq
        simp [setEntry, hlt, lookupEntry]
      · simp only [setEntry, if_neg hlt, if_neg heq, lookupEntry, if_neg heq]
        exact ih h2

theorem length_setEntry {t : τ} {upd : Option ℚ → ℚ} {L : Ledger τ}
    (h : SortedLedger L) :
    (setEntry t upd L).length =
      if lookupEntry t L = none then L.length + 1 else L.length := by
  induction L with
  | nil => simp [setEntry, lookupEntry]
  | cons hd tl ih =>
    obtain ⟨u, v⟩ := hd
    rw [SortedLedger, List.pairwise_cons] at h
    obtain ⟨h1, h2⟩ := h
    by_cases hlt : t < u
    · have hnone : lookupEntry t ((u, v) :: tl) = none := by
        apply lookupEntry_head_lt
        intro p hp
        rcases List.mem_cons.mp hp with rfl | hp
        · exact hlt
        · exact lt_trans hlt (h1 p hp)
      simp [setEntry, hlt, hnone]
    · by_cases heq : t = u
      · subst heq
        simp [setEntry, hlt, lookupEntry]
      · simp only [setEntry, if_neg hlt, if_neg heq, List.length_cons,
          lookupEntry, ih h2]
        by_cases hn : lookupEntry t tl = none <;> simp [hn]

theorem getCumulativeInventory_setEntry {T t : τ} {upd : Option ℚ → ℚ}
    {L : Ledger τ} (h : SortedLedger L) :
    getCumulativeInventory T (setEntry t upd L) =
      getCumulativeInventory T L +
        (if t ≤ T then upd (lookupEntry t L) - (lookupEntry t L).getD 0
         else 0) := by
  induction L with
  | nil =>
    simp only [setEntry, lookupEntry, getCumulativeInventory_cons,
      getCumulativeInventory_nil, Option.getD_none]
    by_cases hT : t ≤ T <;> simp [hT]
  | cons hd tl ih =>
    obtain ⟨u, v⟩ := hd
    rw [SortedLedger, List.pairwise_cons] at h
    obtain ⟨h1, h2⟩ := h
    by_cases hlt : t < u
    · have hnone : lookupEntry t ((u, v) :: tl) = none := by
        apply lookupEntry_head_lt
        intro p hp
        rcases List.mem_cons.mp hp with rfl | hp
        · exact hlt
        · exact lt_trans hlt (h1 p hp)
      simp only [setEntry, if_pos hlt, hnone, getCumulativeInventory_cons,
        Option.getD_none]
      by_cases hT : t ≤ T
      · simp [hT]
        ring
      · simp [hT]
    · by_cases heq : t = u
      · subst heq
        simp only [setEntry, if_neg hlt, if_pos rfl, lookupEntry,
          Option.getD_some]
        by_cases hT : t ≤ T
        · simp [getCumulativeInventory_cons, hT]
          ring
        · simp [getCumulativeInventory_cons, hT]
      · simp only [setEntry, if_neg hlt, if_neg heq, lookupEntry,
          getCumulativeInventory_cons, ih h2]
        ring

theorem lookupEntry_of_mem {t : τ} {v : ℚ} {L : Ledger τ}
    (h : SortedLedger L) (hm : (t, v) ∈ L) : lookupEntry t L = some v := by
  induction L with
  | nil => simp at hm
  | cons hd tl ih =>
    obtain ⟨u, w⟩ := hd
    rw [SortedLedger, List.pairwise_cons] at h
    obtain ⟨h1, h2⟩ := h
    rcases List.mem_cons.mp hm with heq | hm2
    · obtain ⟨rfl, rfl⟩ := Prod.mk.injEq .. ▸ heq
      simp [lookupEntry]
    · have hut : u < t := h1 _ hm2
      simp only [lookupEntry, if_neg (ne_of_gt hut)]
      exact ih h2 hm2

theorem applyOp_sorted {op : LedgerOp τ} {L : Ledger τ}
    (h : SortedLedger L) : SortedLedger (applyOp op L) := by
  cases op <;>
    simp only [applyOp, addInventory, removeInventory, updateInventory] <;>
    exact setEntry_sorted h

theorem applyOps_sorted {ops : List (LedgerOp τ)} {L : Ledger τ}
    (h : SortedLedger L) : SortedLedger (applyOps ops L) := by
  induction ops generalizing L with
  | nil => exact h
  | cons op rest ih => exact ih (applyOp_sorted h)

theorem getInventoryChangeAtTime_setEntry {t : τ} {upd : Option ℚ → ℚ}
    {L : Ledger τ} (h : SortedLedger L) :
    getInventoryChangeAtTime t (setEntry t upd L) = upd (lookupEntry t L) := by
  rw [getInventoryChangeAtTime, lookupEntry_setEntry_self h, Option.getD_some]

theorem python_datetime_to_csharp_eq_of_same_millisecond
    {dt1 dt2 : PyDateTime} (hy : dt1.year = dt2.year)
    (hmo : dt1.month = dt2.month) (hd : dt1.day = dt2.day)
    (hh : dt1.hour = dt2.hour) (hmi : dt1.minute = dt2.minute)
    (hs : dt1.second = dt2.second)
    (hms : dt1.microsecond / 1000 = dt2.microsecond / 1000) :
    python_datetime_to_csharp dt1 = python_datetime_to_csharp dt2 := by
  simp only [python_datetime_to_csharp, CSharpDateTime.mk.injEq]
  exact ⟨hy, hmo, hd, hh, hmi, hs, hms⟩

/-! ## The claims -/

/-- C1: for every ledger and query time `T`, `getCumulativeInventory T` is
the sum of `netChange` over all entries with timestamp `≤ T` (inclusive),
with the empty sum equal to `0`, and it reflects every `addInventory`,
`removeInventory` and `updateInventory` operation, including updates that
retroactively change earlier-recorded totals: an add (or remove) at `t ≤ T`
shifts the cumulative value at `T` by `+q` (resp. `-q`), and an update at
`t ≤ T` shifts it by the difference between the new and the previously
stored net change. -/
theorem claim_C1 (T t : τ) (q c : ℚ) (L : Ledger τ) (h : SortedLedger L) :
    getCumulativeInventory T ([] : Ledger τ) = 0 ∧
    getCumulativeInventory T L =
      (((getAllInventoryChanges L).filter (fun p => decide (p.1 ≤ T))).map
        Prod.snd).sum ∧
    getCumulativeInventory T (addInventory t q L) =
      getCumulativeInventory T L + (if t ≤ T then q else 0) ∧
    getCumulativeInventory T (removeInventory t q L) =
      getCumulativeInventory T L - (if t ≤ T then q else 0) ∧
    getCumulativeInventory T (updateInventory t c L) =
      getCumulativeInventory T L +
        (if t ≤ T then c - getInventoryChangeAtTime t L else 0) := by
  refine ⟨rfl, rfl, ?_, ?_, ?_⟩
  · rw [addInventory, getCumulativeInventory_setEntry h]
    cases hl : lookupEntry t L <;> by_cases hT : t ≤ T <;>
      simp [hl, hT]
  · rw [removeInventory, getCumulativeInventory_setEntry h]
    cases hl : lookupEntry t L <;> by_cases hT : t ≤ T <;>
      simp [hl, hT] <;> ring_nf
  · rw [updateInventory, getCumulativeInventory_setEntry h,
      getInventoryChangeAtTime]

/-- C1 witness: the cumulative-inventory laws evaluated on the concrete
sorted ledger `[(1, 4), (3, 7)]` over integer timestamps. -/
theorem claim_C1_witness :
    getCumulativeInventory 2 (addInventory 1 5 [((1 : ℤ), (4 : ℚ)), (3, 7)]) =
      getCumulativeInventory 2 [((1 : ℤ), (4 : ℚ)), (3, 7)] + 5 :=
  have h : SortedLedger [((1 : ℤ), (4 : ℚ)), (3, 7)] := by
    unfold SortedLedger
    decide
  by simpa using (claim_C1 2 1 5 3 [((1 : ℤ), (4 : ℚ)), (3, 7)] h).2.2.1

/-- C2: `addInventory` accumulates — an existing entry at `t` moves from `v`
to `v + q`, an absent one is created with value `q`; `removeInventory` is
symmetric with `-q`; consequently, on a ledger with no entry at `t`, add `a`
then add `b` yields `a + b`, and add `a` then remove `b` yields `a - b`. -/
theorem claim_C2 (t : τ) (q a b : ℚ) (L : Ledger τ) (h : SortedLedger L) :
    (∀ v : ℚ, lookupEntry t L = some v →
      getInventoryChangeAtTime t (addInventory t q L) = v + q) ∧
    (lookupEntry t L = none →
      getInventoryChangeAtTime t (addInventory t q L) = q) ∧
    (∀ v : ℚ, lookupEntry t L = some v →
      getInventoryChangeAtTime t (removeInventory t q L) = v - q) ∧
    (lookupEntry t L = none →
      getInventoryChangeAtTime t (removeInventory t q L) = -q) ∧
    (lookupEntry t L = none →
      getInventoryChangeAtTime t (addInventory t b (addInventory t a L)) =
        a + b) ∧
    (lookupEntry t L = none →
      getInventoryChangeAtTime t (removeInventory t b (addInventory t a L)) =
        a - b) := by
  have hadd : SortedLedger (addInventory t a L) := setEntry_sorted h
  have hlook : lookupEntry t L = none →
      lookupEntry t (addInventory t a L) = some a := by
    intro hn
    rw [addInventory, lookupEntry_setEntry_self h, hn]
  refine ⟨?_, ?_, ?_, ?_, ?_, ?_⟩
  · intro v hv
    rw [addInventory, getInventoryChangeAtTime_setEntry h, hv]
  · intro hn
    rw [addInventory, getInventoryChangeAtTime_setEntry h, hn]
  · intro v hv
    rw [removeInventory, getInventoryChangeAtTime_setEntry h, hv]
  · intro hn
    rw [removeInventory, getInventoryChangeAtTime_setEntry h, hn]
  · intro hn
    rw [addInventory, getInventoryChangeAtTime_setEntry hadd, hlook hn]
  · intro hn
    rw [removeInventory, getInventoryChangeAtTime_setEntry hadd, hlook hn]

/-- C2 witness: the accumulate laws on a concrete ledger with no entry at
timestamp `2`: add 4 then add 5 at `2` gives `9`; add 4 then remove 5 gives
`-1`. -/
theorem claim_C2_witness :
    getInventoryChangeAtTime 2
      (addInventory 2 5 (addInventory 2 4 [((1 : ℤ), (10 : ℚ))])) = 4 + 5 ∧
    getInventoryChangeAtTime 2
      (removeInventory 2 5 (addInventory 2 4 [((1 : ℤ), (10 : ℚ))])) =
        4 - 5 :=
  have h : SortedLedger [((1 : ℤ), (10 : ℚ))] := by
    unfold SortedLedger
    decide
  have c := claim_C2 2 0 4 5 [((1 : ℤ), (10 : ℚ))] h
  ⟨c.2.2.2.2.1 rfl, c.2.2.2.2.2 rfl⟩

/-- C3: `updateInventory` overwrites rather than accumulates — it sets the
entry at `t` to exactly `c`, replacing any prior value (creating the entry if
absent); in particular add `a` then update `c` at the same `t` yields
`getInventoryChangeAtTime t = c`, not `a + c`. -/
theorem claim_C3 (t : τ) (a c : ℚ) (L : Ledger τ) (h : SortedLedger L) :
    getInventoryChangeAtTime t (updateInventory t c L) = c ∧
    getInventoryChangeAtTime t (updateInventory t c (addInventory t a L)) =
      c := by
  constructor
  · rw [updateInventory, getInventoryChangeAtTime_setEntry h]
  · have h2 : SortedLedger (addInventory t a L) := setEntry_sorted h
    rw [updateInventory, getInventoryChangeAtTime_setEntry h2]

/-- C3 witness: on the concrete ledger `[(1, 10)]`, add 4 then update to 7 at
timestamp `2` leaves exactly `7` recorded there. -/
theorem claim_C3_witness :
    getInventoryChangeAtTime 2
      (updateInventory 2 7 (addInventory 2 4 [((1 : ℤ), (10 : ℚ))])) = 7 :=
  have h : SortedLedger [((1 : ℤ), (10 : ℚ))] := by
    unfold SortedLedger
    decide
  (claim_C3 2 4 7 [((1 : ℤ), (10 : ℚ))] h).2

/-- C4: `getInventoryChangeAtTime t` returns the stored `netChange` on an
exact timestamp match and `0` when no entry exists at exactly `t`; the query
is total — absence is reported as the value `0`, never as a `NotFound`
signal. -/
theorem claim_C4 (t : τ) (L : Ledger τ) (h : SortedLedger L) :
    (∀ v : ℚ, (t, v) ∈ L → getInventoryChangeAtTime t L = v) ∧
    (lookupEntry t L = none → getInventoryChangeAtTime t L = 0) := by
  constructor
  · intro v hv
    rw [getInventoryChangeAtTime, lookupEntry_of_mem h hv, Option.getD_some]
  · intro hn
    rw [getInventoryChangeAtTime, hn, Option.getD_none]

/-- C4 witness: on the concrete ledger `[(1, 10), (3, 7)]`, the query at `3`
returns the stored `7` and the query at `2` (no entry) returns `0`. -/
theorem claim_C4_witness :
    getInventoryChangeAtTime 3 [((1 : ℤ), (10 : ℚ)), (3, 7)] = 7 ∧
    getInventoryChangeAtTime 2 [((1 : ℤ), (10 : ℚ)), (3, 7)] = 0 :=
  have h : SortedLedger [((1 : ℤ), (10 : ℚ)), (3, 7)] := by
    unfold SortedLedger
    decide
  ⟨(claim_C4 3 [((1 : ℤ), (10 : ℚ)), (3, 7)] h).1 7 (by simp),
   (claim_C4 2 [((1 : ℤ), (10 : ℚ)), (3, 7)] h).2 (by decide)⟩

/-- C5: `getInventoryChangesInRange s e` returns exactly the entries with
`s ≤ timestamp ≤ e` (both ends inclusive), sorted strictly ascending by
timestamp, and returns the empty sequence — not an error — whenever no entry
falls in the range, in particular whenever `s > e`. -/
theorem claim_C5 (s e : τ) (L : Ledger τ) (h : SortedLedger L) :
    (∀ p : τ × ℚ, p ∈ getInventoryChangesInRange s e L ↔
      p ∈ getAllInventoryChanges L ∧ s ≤ p.1 ∧ p.1 ≤ e) ∧
    List.Pairwise (fun p q : τ × ℚ => p.1 < q.1)
      (getInventoryChangesInRange s e L) ∧
    (e < s → getInventoryChangesInRange s e L = []) := by
  refine ⟨?_, ?_, ?_⟩
  · intro p
    simp [getInventoryChangesInRange, getAllInventoryChanges,
      List.mem_filter, and_assoc]
  · exact List.Pairwise.filter _ h
  · intro hes
    rw [getInventoryChangesInRange, List.filter_eq_nil_iff]
    intro p hp
    simp only [decide_eq_true_eq, not_and]
    intro h1 h2
    exact absurd (le_trans h1 h2) (not_le.mpr hes)

/-- C5 witness: on the concrete ledger `[(1, 10), (3, 7), (5, 2)]`, the range
`[2, 4]` contains exactly the entry `(3, 7)` and the inverted range `[4, 2]`
is empty. -/
theorem claim_C5_witness :
    ((3, (7 : ℚ)) ∈
        getInventoryChangesInRange 2 4
          [((1 : ℤ), (10 : ℚ)), (3, 7), (5, 2)] ↔
      (3, (7 : ℚ)) ∈
          getAllInventoryChanges [((1 : ℤ), (10 : ℚ)), (3, 7), (5, 2)] ∧
        (2 : ℤ) ≤ 3 ∧ (3 : ℤ) ≤ 4) ∧
    getInventoryChangesInRange 4 2 [((1 : ℤ), (10 : ℚ)), (3, 7), (5, 2)] =
      [] :=
  have h : SortedLedger [((1 : ℤ), (10 : ℚ)), (3, 7), (5, 2)] := by
    unfold SortedLedger
    decide
  have c := claim_C5 2 4 [((1 : ℤ), (10 : ℚ)), (3, 7), (5, 2)] h
  have c2 := claim_C5 4 2 [((1 : ℤ), (10 : ℚ)), (3, 7), (5, 2)] h
  ⟨c.1 (3, 7), c2.2.2 (by decide)⟩

/-- C6: after any sequence of `addInventory`, `removeInventory` and
`updateInventory` operations on an initially empty ledger, the ledger is
strictly ascending by timestamp, so it holds at most one entry per distinct
timestamp, and `getAllInventoryChanges` returns the full entry set sorted
strictly ascending with no duplicated timestamps. -/
theorem claim_C6 {σ : Type} [LinearOrder σ] (ops : List (LedgerOp σ)) :
    SortedLedger (applyOps ops ([] : Ledger σ)) ∧
    List.Pairwise (fun p q : σ × ℚ => p.1 < q.1)
      (getAllInventoryChanges (applyOps ops ([] : Ledger σ))) ∧
    ((applyOps ops ([] : Ledger σ)).map Prod.fst).Nodup := by
  have h : SortedLedger (applyOps ops ([] : Ledger σ)) :=
    applyOps_sorted (by simp [SortedLedger])
  refine ⟨h, h, ?_⟩
  rw [List.Nodup, List.pairwise_map]
  exact h.imp ne_of_lt

theorem catalog_create_idem (c : Catalog) (n : String) :
    Catalog.create (Catalog.create c n).1 n = Catalog.create c n := by
  induction c with
  | nil => simp [Catalog.create]
  | cons e rest ih =>
    by_cases h : e.name = n
    · simp [Catalog.create, h]
    · simp only [Catalog.create, if_neg h]
      rw [ih]

theorem plregistry_create_idem (r : PLRegistry) (p l : String) :
    PLRegistry.create (PLRegistry.create r p l).1 p l =
      PLRegistry.create r p l := by
  induction r with
  | nil => simp [PLRegistry.create, ProductLocation.key]
  | cons x rest ih =>
    by_cases h : x.key = p ++ "@" ++ l
    · simp [PLRegistry.create, h]
    · simp only [PLRegistry.create, if_neg h]
      rw [ih]

/-- C7: entity and relation creation is idempotent — a second `create` with
the same name (or the same product/location pair) returns the same
registry/instance pair as the first, so the existing instance is returned
unchanged with no duplicate and the registry size is unchanged after the
second call. -/
theorem claim_C7 (c : Catalog) (n : String) (r : PLRegistry) (p l : String) :
    Catalog.create (Catalog.create c n).1 n = Catalog.create c n ∧
    (Catalog.create (Catalog.create c n).1 n).1.length =
      (Catalog.create c n).1.length ∧
    PLRegistry.create (PLRegistry.create r p l).1 p l =
      PLRegistry.create r p l ∧
    (PLRegistry.create (PLRegistry.create r p l).1 p l).1.length =
      (PLRegistry.create r p l).1.length := by
  refine ⟨catalog_create_idem c n, ?_, plregistry_create_idem r p l, ?_⟩
  · rw [catalog_create_idem c n]
  · rw [plregistry_create_idem r p l]

/-- C8: every relation created from `(productName, locationName)` exposes
exactly the key `productName ++ "@" ++ locationName`, and `getByKey` with
that exact string returns that relation. -/
theorem claim_C8 (r : PLRegistry) (p l : String) :
    (PLRegistry.create r p l).2.key = p ++ "@" ++ l ∧
    PLRegistry.getByKey (PLRegistry.create r p l).1 (p ++ "@" ++ l) =
      some (PLRegistry.create r p l).2 := by
  induction r with
  | nil =>
    constructor
    · rfl
    · simp [PLRegistry.create, PLRegistry.getByKey, ProductLocation.key]
  | cons x rest ih =>
    obtain ⟨ih1, ih2⟩ := ih
    by_cases h : x.key = p ++ "@" ++ l
    · constructor
      · simp only [PLRegistry.create, if_pos h]
        exact h
      · simp [PLRegistry.create, PLRegistry.getByKey, h]
    · constructor
      · simpa [PLRegistry.create, h] using ih1
      · simpa [PLRegistry.create, PLRegistry.getByKey, h] using ih2

/-- C9: timestamp keying is exact value equality at millisecond precision —
two writes through the boundary layer whose Python timestamps agree on every
component down to the stored millisecond (`microsecond // 1000`) convert to
the same C# instant and are treated as one entry: the second write
accumulates into the first (here `a + b`) and adds no second entry. -/
theorem claim_C9 (dt1 dt2 : PyDateTime) (a b : ℚ)
    (L : Ledger CSharpDateTime) (hy : dt1.year = dt2.year)
    (hmo : dt1.month = dt2.month) (hd : dt1.day = dt2.day)
    (hh : dt1.hour = dt2.hour) (hmi : dt1.minute = dt2.minute)
    (hs : dt1.second = dt2.second)
    (hms : dt1.microsecond / 1000 = dt2.microsecond / 1000)
    (hL : SortedLedger L)
    (habs : lookupEntry (python_datetime_to_csharp dt1) L = none) :
    python_datetime_to_csharp dt1 = python_datetime_to_csharp dt2 ∧
    get_inventory_change_at_time
      (add_inventory (add_inventory L dt1 a) dt2 b) dt1 = a + b ∧
    (add_inventory (add_inventory L dt1 a) dt2 b).length = L.length + 1 := by
  have hconv : python_datetime_to_csharp dt1 = python_datetime_to_csharp dt2 :=
    python_datetime_to_csharp_eq_of_same_millisecond hy hmo hd hh hmi hs hms
  have hadd : SortedLedger (add_inventory L dt1 a) := setEntry_sorted hL
  have hlook :
      lookupEntry (python_datetime_to_csharp dt1) (add_inventory L dt1 a) =
        some a := by
    rw [add_inventory, addInventory, lookupEntry_setEntry_self hL, habs]
  refine ⟨hconv, ?_, ?_⟩
  · rw [add_inventory, ← hconv, get_inventory_change_at_time, addInventory,
      getInventoryChangeAtTime_setEntry hadd, hlook]
  · rw [add_inventory, ← hconv, addInventory, length_setEntry hadd, hlook,
      add_inventory, addInventory, length_setEntry hL, habs]
    simp

/-- C9 witness: two Python datetimes in the same millisecond
(`123456 µs` and `123999 µs`) convert to the same C# instant; adding 2 then 3
units at them produces one entry holding 5. -/
theorem claim_C9_witness :
    python_datetime_to_csharp ⟨2024, 1, 1, 12, 0, 0, 123456⟩ =
      python_datetime_to_csharp ⟨2024, 1, 1, 12, 0, 0, 123999⟩ ∧
    get_inventory_change_at_time
      (add_inventory (add_inventory [] ⟨2024, 1, 1, 12, 0, 0, 123456⟩ 2)
        ⟨2024, 1, 1, 12, 0, 0, 123999⟩ 3)
      ⟨2024, 1, 1, 12, 0, 0, 123456⟩ = 2 + 3 ∧
    (add_inventory (add_inventory [] ⟨2024, 1, 1, 12, 0, 0, 123456⟩ 2)
        ⟨2024, 1, 1, 12, 0, 0, 123999⟩ 3).length =
      ([] : Ledger CSharpDateTime).length + 1 :=
  claim_C9 ⟨2024, 1, 1, 12, 0, 0, 123456⟩ ⟨2024, 1, 1, 12, 0, 0, 123999⟩
    2 3 [] rfl rfl rfl rfl rfl rfl (by decide) (by unfold SortedLedger; simp)
    rfl

/-- C10: the boundary conversion truncates (never rounds) sub-millisecond
precision — the round trip `csharp_datetime_to_python ∘
python_datetime_to_csharp` equals the input with its microsecond field
replaced by `microsecond / 1000 * 1000`, it is the identity exactly when the
microsecond count is a multiple of `1000`, and two Python datetimes differing
only within the same millisecond map to the same stored instant. -/
theorem claim_C10 (dt dt1 dt2 : PyDateTime) (hy : dt1.year = dt2.year)
    (hmo : dt1.month = dt2.month) (hd : dt1.day = dt2.day)
    (hh : dt1.hour = dt2.hour) (hmi : dt1.minute = dt2.minute)
    (hs : dt1.second = dt2.second)
    (hms : dt1.microsecond / 1000 = dt2.microsecond / 1000) :
    csharp_datetime_to_python (python_datetime_to_csharp dt) =
      { dt with microsecond := dt.microsecond / 1000 * 1000 } ∧
    (csharp_datetime_to_python (python_datetime_to_csharp dt) = dt ↔
      1000 ∣ dt.microsecond) ∧
    python_datetime_to_csharp dt1 = python_datetime_to_csharp dt2 := by
  refine ⟨rfl, ?_,
    python_datetime_to_csharp_eq_of_same_millisecond hy hmo hd hh hmi hs hms⟩
  cases dt with
  | mk y mo d hr mi s us =>
    simp only [python_datetime_to_csharp, csharp_datetime_to_python,
      PyDateTime.mk.injEq, true_and]
    constructor
    · intro hmul
      exact ⟨us / 1000, by omega⟩
    · intro hdvd
      exact Nat.div_mul_cancel hdvd

/-- C10 witness: the round trip truncates `123456 µs` to `123000 µs`, is the
identity on `123000 µs`, and identifies `123456 µs` with `123999 µs`. -/
theorem claim_C10_witness :
    csharp_datetime_to_python
        (python_datetime_to_csharp ⟨2024, 1, 1, 12, 0, 0, 123456⟩) =
      { year := 2024, month := 1, day := 1, hour := 12, minute := 0,
        second := 0, microsecond := 123456 / 1000 * 1000 } ∧
    (csharp_datetime_to_python
          (python_datetime_to_csharp ⟨2024, 1, 1, 12, 0, 0, 123456⟩) =
        ⟨2024, 1, 1, 12, 0, 0, 123456⟩ ↔
      1000 ∣ 123456) ∧
    python_datetime_to_csharp ⟨2024, 1, 1, 12, 0, 0, 123456⟩ =
      python_datetime_to_csharp ⟨2024, 1, 1, 12, 0, 0, 123999⟩ :=
  claim_C10 ⟨2024, 1, 1, 12, 0, 0, 123456⟩ ⟨2024, 1, 1, 12, 0, 0, 123456⟩
    ⟨2024, 1, 1, 12, 0, 0, 123999⟩ rfl rfl rfl rfl rfl rfl (by decide)

end Scheduling
